import Mathlib

/-!
Verification of the sbomfetch program (final revision of `sbomfetch.go`).

Go strings are modelled as `List Char` (`GoStr`), and the relevant library
functions (`strings.Contains`, `strings.HasPrefix`, `strings.Split`,
`path.Base`, `path/filepath.Clean`, `path/filepath.Join`) are given
executable shallow embeddings.  The program's own functions
(`isTarball`, `getFilenameFromURL`, `extractPackageMappingsFromData`,
`downloadFileToDir`, `downloadConcurrently`, `extractArchive`) are then
translated definition by definition.
-/

set_option maxHeartbeats 1000000

namespace Sbomfetch

/-! ## Definitions: shallow embedding of the program and its library calls -/

/-- Go strings as lists of characters. -/
abbrev GoStr := List Char

/-- Convert a Lean string literal to the `GoStr` model. -/
def gs (s : String) : GoStr := s.data

/-- Model of `strings.ToLower` (ASCII is all that occurs in this program). -/
def lowerStr (s : GoStr) : GoStr := s.map Char.toLower

/-- Model of `strings.Split(s, "/")`: split on every `'/'`; never returns `[]`. -/
def splitSlash : GoStr → List GoStr
  | [] => [[]]
  | c :: rest =>
    if c = '/' then [] :: splitSlash rest
    else
      match splitSlash rest with
      | [] => [[c]]
      | p :: ps => (c :: p) :: ps

/-- Model of `strings.Contains(s, sub)`: substring occurrence test. -/
def containsSub (sub : GoStr) : GoStr → Bool
  | [] => sub.isEmpty
  | c :: rest => sub.isPrefixOf (c :: rest) || containsSub sub rest

/-- Function `isTarball` from the source: case-insensitive *substring* test for the
four recognised archive endings, applied to the whole string. -/
def isTarball (url : GoStr) : Bool :=
  let lowerURL := lowerStr url
  containsSub (gs ".tar.gz") lowerURL ||
  containsSub (gs ".tar.xz") lowerURL ||
  containsSub (gs ".tgz") lowerURL ||
  containsSub (gs ".tar.bz2") lowerURL

/-- Model of `path.Base`: strip trailing slashes, then keep everything after the last
slash; `""` maps to `"."`, an all-slash string maps to `"/"`. -/
def pathBase (p : GoStr) : GoStr :=
  if p = [] then gs "."
  else
    let stripped := (p.reverse.dropWhile (fun c => c = '/')).reverse
    let base := (stripped.reverse.takeWhile (fun c => c ≠ '/')).reverse
    if base = [] then gs "/" else base

/-- The fallback scan in `getFilenameFromURL`: the loop walks the split parts
from the end and stops at the first non-empty one. -/
def lastNonEmptyPart : List GoStr → Option GoStr
  | [] => none
  | p :: rest =>
    match lastNonEmptyPart rest with
    | some q => some q
    | none => if p = [] then none else some p

/-- Function `getFilenameFromURL` from the source. -/
def getFilenameFromURL (url : GoStr) : GoStr :=
  let filename := pathBase url
  let filename :=
    if filename = gs "." ∨ filename = gs "/" then
      match lastNonEmptyPart (splitSlash url) with
      | some p => p
      | none => filename
    else filename
  if isTarball filename then filename else filename ++ gs ".tar.gz"

/-- One step of the `Clean` segment stack, with the stack reversed. -/
def cleanStepR (rooted : Bool) (acc : List GoStr) (seg : GoStr) : List GoStr :=
  if seg = [] ∨ seg = gs "." then acc
  else if seg = gs ".." then
    match acc with
    | [] => if rooted then [] else [seg]
    | a :: rest => if a = gs ".." then (if rooted then acc else seg :: acc) else rest
  else seg :: acc

/-- The cleaned segment list of a path, in path order. -/
def cleanSegs (rooted : Bool) (segs : List GoStr) : List GoStr :=
  (segs.foldl (cleanStepR rooted) []).reverse

/-- Render a segment list with `'/'` separators. -/
def joinSegs : List GoStr → GoStr
  | [] => []
  | [s] => s
  | s :: t :: rest => s ++ '/' :: joinSegs (t :: rest)

/-- Whether a path is absolute (`path[0] == '/'`). -/
def isRooted : GoStr → Bool
  | c :: _ => c == '/'
  | [] => false

/-- Model of `filepath.Clean` on Unix. -/
def clean (p : GoStr) : GoStr :=
  let rooted := isRooted p
  let out := cleanSegs rooted (splitSlash p)
  if rooted then (if out = [] then gs "/" else '/' :: joinSegs out)
  else (if out = [] then gs "." else joinSegs out)

/-- Model of `filepath.Join(a, b)` on Unix: empty elements are dropped, the rest are
joined with `'/'` and the result is cleaned; all-empty input gives `""`. -/
def joinPath (a b : GoStr) : GoStr :=
  if a = [] ∧ b = [] then []
  else if a = [] then clean b
  else if b = [] then clean a
  else clean (a ++ '/' :: b)

/-- A "real" path segment: non-empty and neither `"."` nor `".."`. -/
def realSeg (s : GoStr) : Bool :=
  !(s == ([] : GoStr)) && !(s == gs ".") && !(s == gs "..")

/-- Invariant of the (reversed) `Clean` segment stack: no empty or `"."`
segments, no slashes inside segments, all `".."` segments at the end
(i.e. at the bottom of the stack), and none at all in a rooted path. -/
structure StackOK (rooted : Bool) (acc : List GoStr) : Prop where
  segs : ∀ s ∈ acc, s ≠ [] ∧ s ≠ gs "." ∧ '/' ∉ s
  split : ∃ xs ys, acc = xs ++ ys ∧ (∀ s ∈ xs, s ≠ gs "..") ∧
    (∀ s ∈ ys, s = gs "..") ∧ (rooted = true → ys = [])

/-- Structure of a cleaned segment list: no empty/`"."` segments, no slashes,
all `".."` segments form a leading run, and rooted paths have none. -/
structure OutOK (rooted : Bool) (out : List GoStr) : Prop where
  segs : ∀ s ∈ out, s ≠ [] ∧ s ≠ gs "." ∧ '/' ∉ s
  split : ∃ ds ns, out = ds ++ ns ∧ (∀ s ∈ ds, s = gs "..") ∧
    (∀ s ∈ ns, s ≠ gs "..") ∧ (rooted = true → ds = [])

/-- The extractor's security test on an entry name
(`strings.HasPrefix(filepath.Join(extractDir, name), filepath.Clean(extractDir)+"/")`). -/
def pathCheck (extractDir name : GoStr) : Bool :=
  (clean extractDir ++ ['/']).isPrefixOf (joinPath extractDir name)

/-- Predicate: `p` lies strictly under the directory `r`: `r ++ "/"` is a literal prefix
and every remaining segment is a real one (no `""`, `"."` or `".."`). -/
def descendsFrom (p r : GoStr) : Bool :=
  (r ++ ['/']).isPrefixOf p && (splitSlash (p.drop (r.length + 1))).all realSeg

/-- A root is *proper* when it is absolute or its cleaned form contains at
least one real segment (so the cleaned root is not `"."`, `"/"` or a bare
chain of `".."` segments). -/
def properRoot (root : GoStr) : Bool :=
  isRooted root || (splitSlash (clean root)).any realSeg

/-- Tar entry types distinguished by `extractArchive`'s `switch`. -/
inductive TarType
  | dir
  | reg
  | symlink
  | other
deriving DecidableEq

/-- A tar-stream entry header, as consumed by `extractArchive`. -/
structure TarHeader where
  name : GoStr
  typeflag : TarType
  linkname : GoStr
deriving DecidableEq

/-- The filesystem paths at which `extractArchive` creates a directory, a
regular file, or a symbolic link while streaming `entries`: each entry's
target is `filepath.Join(extractDir, header.Name)`, an entry failing the
`HasPrefix` containment test is skipped (processing continues), and entries
of any other type are ignored. -/
def entryTargets (extractDir : GoStr) (entries : List TarHeader) : List GoStr :=
  entries.filterMap fun h =>
    if pathCheck extractDir h.name then
      match h.typeflag with
      | TarType.dir => some (joinPath extractDir h.name)
      | TarType.reg => some (joinPath extractDir h.name)
      | TarType.symlink => some (joinPath extractDir h.name)
      | TarType.other => none
    else none

/-- An SPDX package record (`SPDXID`, `name`, `downloadLocation`). -/
structure Package where
  SPDXID : GoStr
  name : GoStr
  DownloadLocation : GoStr
deriving DecidableEq

/-- An SPDX relationship record. -/
structure Relationship where
  SpdxElementId : GoStr
  RelationshipType : GoStr
  RelatedSpdxElement : GoStr
deriving DecidableEq

/-- A parsed SPDX document. -/
structure SPDXSBOM where
  packages : List Package
  relationships : List Relationship
deriving DecidableEq

/-- One download task: an archive URL and its owning package names. -/
structure PackageMapping where
  URL : GoStr
  APKPackages : List GoStr
deriving DecidableEq

/-- The `packageMap` lookup table (`SPDXID -> *Package`); Go map insertion is
last-write-wins, so look up the last matching package. -/
def packageMap (pkgs : List Package) (id : GoStr) : Option Package :=
  pkgs.reverse.find? (fun p => p.SPDXID == id)

/-- The `sourceToAPKs` table: for a source identifier, the names appended by
each `GENERATED_FROM` relationship whose `SpdxElementId` resolves in
`packageMap` and whose `RelatedSpdxElement` is that identifier. -/
def sourceToAPKs (pkgs : List Package) (rels : List Relationship) (src : GoStr) : List GoStr :=
  rels.filterMap fun rel =>
    if rel.RelationshipType == gs "GENERATED_FROM" then
      match packageMap pkgs rel.SpdxElementId with
      | some apkPkg => if rel.RelatedSpdxElement == src then some apkPkg.name else none
      | none => none
    else none

/-- The candidate filter of the grouping loop: non-empty, not `NOASSERTION`,
`strings.HasPrefix(dl, "http")`, and `isTarball(dl)`. -/
def qualifies (p : Package) : Bool :=
  !(p.DownloadLocation == ([] : GoStr)) &&
  !(p.DownloadLocation == gs "NOASSERTION") &&
  (gs "http").isPrefixOf p.DownloadLocation &&
  isTarball p.DownloadLocation

/-- The names a single package contributes to its URL's group (`"unknown"`
when the reverse index has none). -/
def ownersForPkg (sbom : SPDXSBOM) (p : Package) : List GoStr :=
  let apkPackages := sourceToAPKs sbom.packages sbom.relationships p.SPDXID
  if apkPackages.isEmpty then [gs "unknown"] else apkPackages

/-- The `urlToPackages` map entry for a URL: concatenated contributions of
the qualifying packages with that download location, in package order. -/
def urlToPackages (sbom : SPDXSBOM) (url : GoStr) : List GoStr :=
  (sbom.packages.filter fun p => qualifies p && p.DownloadLocation == url).flatMap
    (ownersForPkg sbom)

/-- The duplicate-removal loop (`uniquePackages` seen-set, keep first). -/
def dedupAux (seen : List GoStr) : List GoStr → List GoStr
  | [] => []
  | x :: rest => if x ∈ seen then dedupAux seen rest else x :: dedupAux (x :: seen) rest

/-- Remove duplicates keeping first occurrences. -/
def dedupFirst (l : List GoStr) : List GoStr := dedupAux [] l

/-- The key set of the `urlToPackages` map, in first-insertion order. -/
def mapKeys (sbom : SPDXSBOM) : List GoStr :=
  dedupFirst ((sbom.packages.filter qualifies).map fun p => p.DownloadLocation)

/-- The `PackageMapping` built for one URL of the map. -/
def taskFor (sbom : SPDXSBOM) (url : GoStr) : PackageMapping :=
  ⟨url, dedupFirst (urlToPackages sbom url)⟩

/-- Function `extractPackageMappingsFromData` after JSON parsing: the final loop
ranges over the `urlToPackages` map, whose iteration order Go deliberately
randomizes per run; a run of the program corresponds to some permutation
`order` of `mapKeys sbom`. -/
def extractPackageMappingsFromData (sbom : SPDXSBOM) (order : List GoStr) :
    List PackageMapping :=
  order.map (taskFor sbom)

/-- Modelled from the spec: the remainder of the URL after the first
`"://"` scheme separator (the whole URL when there is none). -/
def specAfterSchemeSep : GoStr → GoStr
  | [] => []
  | c :: rest =>
    if (gs "://").isPrefixOf (c :: rest) then (c :: rest).drop 3
    else specAfterSchemeSep rest

/-- Modelled from the spec: "its URL path component" — the part of the URL
from the first `'/'` after the `"://"` scheme separator, cut at a `'?'` or
`'#'`. -/
def specURLPath (u : GoStr) : GoStr :=
  (specAfterSchemeSep u).dropWhile (fun c => c ≠ '/') |>.takeWhile fun c => c ≠ '?' ∧ c ≠ '#'

/-- Modelled from the spec: the claim's recognition test — the URL *path
component ends* (case-insensitively) with one of the four recognised
tar-archive suffixes. -/
def specPathEndsWithTarSuffix (u : GoStr) : Bool :=
  let path := lowerStr (specURLPath u)
  (gs ".tar.gz").isSuffixOf path || (gs ".tgz").isSuffixOf path ||
  (gs ".tar.xz").isSuffixOf path || (gs ".tar.bz2").isSuffixOf path

/-- Modelled from the spec: the claim's candidate predicate for C3
(non-empty, not the `"NOASSERTION"` sentinel, an HTTP/HTTPS scheme marker,
and a recognised tarball suffix at the end of the path component). -/
def specCandidate (p : Package) : Bool :=
  !(p.DownloadLocation == ([] : GoStr)) &&
  !(p.DownloadLocation == gs "NOASSERTION") &&
  ((gs "http://").isPrefixOf (lowerStr p.DownloadLocation) ||
   (gs "https://").isPrefixOf (lowerStr p.DownloadLocation)) &&
  specPathEndsWithTarSuffix p.DownloadLocation

/-- A document with two qualifying packages sharing one URL (one with a
resolved owner) used to instantiate the resolver theorems. -/
def docShared : SPDXSBOM :=
  ⟨[⟨gs "SA", gs "src-a", gs "https://x/a.tar.gz"⟩,
    ⟨gs "SB", gs "src-b", gs "https://x/a.tar.gz"⟩,
    ⟨gs "BIN", gs "libgcc", gs ""⟩],
   [⟨gs "BIN", gs "GENERATED_FROM", gs "SA"⟩]⟩

/-- A document with one qualifying package and no relationships. -/
def docLone : SPDXSBOM :=
  ⟨[⟨gs "SA", gs "src-a", gs "https://x/a.tar.gz"⟩], []⟩

/-- A document with two qualifying packages with distinct URLs. -/
def docTwoURLs : SPDXSBOM :=
  ⟨[⟨gs "S1", gs "a", gs "https://x/a.tar.gz"⟩,
    ⟨gs "S2", gs "b", gs "https://x/b.tar.gz"⟩], []⟩

/-- An HTTP response as observed by `downloadFileToDir`. -/
structure HttpResponse where
  statusCode : Nat
  status : GoStr
deriving DecidableEq

/-- Outcome of `http.Get`: transport error or a response. -/
inductive NetResult
  | fail (msg : GoStr)
  | resp (r : HttpResponse)
deriving DecidableEq

/-- The I/O behaviour a single download task encounters. -/
structure IOEnv where
  net : NetResult
  createErr : Option GoStr
  copyErr : Option GoStr
deriving DecidableEq

/-- Function `downloadFileToDir`: `none` on success, `some cause` on failure, mirroring
the code's early returns (transport error, then `StatusCode != http.StatusOK`
with 200 = `http.StatusOK`, then `os.Create`, then `io.Copy`). -/
def downloadFileToDir (env : IOEnv) : Option GoStr :=
  match env.net with
  | NetResult.fail m => some (gs "failed to download: " ++ m)
  | NetResult.resp r =>
    if r.statusCode ≠ 200 then some (gs "bad status: " ++ r.status)
    else
      match env.createErr with
      | some m => some (gs "failed to create file: " ++ m)
      | none =>
        match env.copyErr with
        | some m => some (gs "failed to save file: " ++ m)
        | none => none

/-- One download result as sent on the results channel. -/
structure DownloadResult where
  URL : GoStr
  APKPackages : List GoStr
  err : Option GoStr
deriving DecidableEq

/-- The body of `worker` for one job: one call to `downloadFileToDir`, one
result; the task is not retried. -/
def workerRun (envOf : GoStr → IOEnv) (m : PackageMapping) : DownloadResult :=
  ⟨m.URL, m.APKPackages, downloadFileToDir (envOf m.URL)⟩

/-- The aggregate summary built by the collection loop. -/
structure DownloadSummary where
  SuccessCount : Nat
  FailureCount : Nat
  Files : List GoStr
  FilePackages : List (GoStr × List GoStr)
deriving DecidableEq

/-- One step of the result-collection loop of `downloadConcurrently`. -/
def collectStep (archivesDir : GoStr) (acc : DownloadSummary) (r : DownloadResult) :
    DownloadSummary :=
  match r.err with
  | some _ => { acc with FailureCount := acc.FailureCount + 1 }
  | none =>
    let filename := getFilenameFromURL r.URL
    let filePath := joinPath archivesDir filename
    { acc with
        SuccessCount := acc.SuccessCount + 1,
        Files := acc.Files ++ [filePath],
        FilePackages := acc.FilePackages ++ [(filePath, r.APKPackages)] }

/-- Function `downloadConcurrently`: with `concurrency ≥ 1` workers, each mapping is
processed exactly once and its result arrives once, in the nondeterministic
channel order `arrival` (a permutation of `mappings`); the aggregator drains
the results channel until it is closed after all workers finish. -/
def downloadConcurrently (mappings : List PackageMapping) (archivesDir : GoStr)
    (concurrency : Nat) (envOf : GoStr → IOEnv)
    (arrival : List PackageMapping) : DownloadSummary :=
  (arrival.map (workerRun envOf)).foldl (collectStep archivesDir) ⟨0, 0, [], []⟩

/-- The last segment of a string as cut by its final `'/'` (empty for a
trailing slash). -/
def rawLastSeg (x : GoStr) : GoStr :=
  (x.reverse.takeWhile fun c => c ≠ '/').reverse

/-- The last segment after stripping trailing slashes (empty iff the string
is all slashes or empty). -/
def coreSeg (u : GoStr) : GoStr :=
  ((u.reverse.dropWhile fun c => c = '/').takeWhile fun c => c ≠ '/').reverse

/-- The first two steps of `getFilenameFromURL` (`path.Base` plus the
non-empty-part fallback), before the suffix normalization. -/
def baseName (url : GoStr) : GoStr :=
  let filename := pathBase url
  if filename = gs "." ∨ filename = gs "/" then
    match lastNonEmptyPart (splitSlash url) with
    | some p => p
    | none => filename
  else filename

/-- Modelled from the spec: the claim's test — the derived name *ends*
(case-insensitively) with one of the four recognised tarball suffixes. -/
def specEndsWithTarSuffix (n : GoStr) : Bool :=
  let l := lowerStr n
  (gs ".tar.gz").isSuffixOf l || (gs ".tgz").isSuffixOf l ||
  (gs ".tar.xz").isSuffixOf l || (gs ".tar.bz2").isSuffixOf l

/-! ## Theorems -/

theorem splitSlash_ne_nil (s : GoStr) : splitSlash s ≠ [] := by
  cases s with
  | nil => simp [splitSlash]
  | cons c rest =>
    simp only [splitSlash]
    split
    · simp
    · split <;> simp

theorem splitSlash_no_slash {s : GoStr} {p : GoStr} (hp : p ∈ splitSlash s) :
    '/' ∉ p := by
  induction s generalizing p with
  | nil => simp [splitSlash] at hp; simp [hp]
  | cons c rest ih =>
    simp only [splitSlash] at hp
    by_cases hc : c = '/'
    · simp [hc] at hp
      rcases hp with h | h
      · simp [h]
      · exact ih h
    · simp [hc] at hp
      rcases hsp : splitSlash rest with _ | ⟨q, qs⟩
      · exact absurd hsp (splitSlash_ne_nil rest)
      · rw [hsp] at hp
        simp at hp
        rcases hp with h | h
        · subst h
          intro hmem
          simp at hmem
          rcases hmem with h | h
          · exact hc h.symm
          · exact ih (by rw [hsp]; exact List.mem_cons_self q qs) h
        · exact ih (by rw [hsp]; exact List.mem_cons_of_mem q h)

/-- Splitting distributes over a `'/'` separator. -/
theorem splitSlash_append (x y : GoStr) :
    splitSlash (x ++ '/' :: y) = splitSlash x ++ splitSlash y := by
  induction x with
  | nil => simp [splitSlash]
  | cons c rest ih =>
    by_cases hc : c = '/'
    · simp [splitSlash, hc, ih]
    · simp only [List.cons_append, splitSlash, if_neg hc, List.append_eq]
      rw [ih]
      rcases hsp : splitSlash rest with _ | ⟨q, qs⟩
      · exact absurd hsp (splitSlash_ne_nil rest)
      · simp

/-- Splitting a slash-free string yields that string as the only part. -/
theorem splitSlash_no_sep {s : GoStr} (h : '/' ∉ s) : splitSlash s = [s] := by
  induction s with
  | nil => simp [splitSlash]
  | cons c rest ih =>
    have hc : c ≠ '/' := fun hh => h (by simp [hh])
    have hr : '/' ∉ rest := fun hh => h (by simp [hh])
    simp [splitSlash, hc, ih hr]

theorem isPrefixOf_eq {l1 l2 : GoStr} : l1.isPrefixOf l2 = true ↔ l1 <+: l2 :=
  List.isPrefixOf_iff_prefix

theorem start_contained {l1 l2 : GoStr} (h : l1 <+: l2) : l1 <:+: l2 :=
  List.IsPrefix.isInfix h

theorem end_contained {l1 l2 : GoStr} (h : l1 <:+ l2) : l1 <:+: l2 :=
  List.IsSuffix.isInfix h

theorem containsSub_iff (sub s : GoStr) : containsSub sub s = true ↔ sub <:+: s := by
  induction s with
  | nil =>
    simp [containsSub, List.isEmpty_iff]
  | cons c rest ih =>
    simp only [containsSub, Bool.or_eq_true, ih]
    constructor
    · rintro (h | h)
      · exact start_contained (isPrefixOf_eq.mp h)
      · exact h.trans (List.infix_cons (List.infix_refl rest))
    · intro h
      rcases h with ⟨u, v, huv⟩
      rcases u with _ | ⟨u0, u'⟩
      · left
        apply isPrefixOf_eq.mpr
        exact ⟨v, huv⟩
      · right
        refine ⟨u', v, ?_⟩
        simpa using congrArg List.tail huv

example : getFilenameFromURL (gs "https://x/glibc-2.41.tar.gz") = gs "glibc-2.41.tar.gz" := by decide
example : getFilenameFromURL (gs "https://x/foo") = gs "foo.tar.gz" := by decide
example : getFilenameFromURL (gs "https://x/foo.tar.gz.sig") = gs "foo.tar.gz.sig" := by decide
example : getFilenameFromURL (gs "/") = gs "/.tar.gz" := by decide
example : getFilenameFromURL (gs "") = gs "..tar.gz" := by decide
example : getFilenameFromURL (gs "/.tar.gz") = gs ".tar.gz" := by decide

example : clean (gs "") = gs "." := by decide
example : clean (gs "/") = gs "/" := by decide
example : clean (gs "a/../b") = gs "b" := by decide
example : clean (gs "/a/../../b") = gs "/b" := by decide
example : clean (gs "../x") = gs "../x" := by decide
example : clean (gs "a//b/./c/") = gs "a/b/c" := by decide
example : joinPath (gs "..") (gs "../x") = gs "../../x" := by decide
example : joinPath (gs "root") (gs "/etc/passwd") = gs "root/etc/passwd" := by decide
example : joinPath (gs "a") (gs ".") = gs "a" := by decide

theorem realSeg_iff (s : GoStr) :
    realSeg s = true ↔ s ≠ [] ∧ s ≠ gs "." ∧ s ≠ gs ".." := by
  simp [realSeg, and_assoc]

theorem stackOK_nil (rooted : Bool) : StackOK rooted [] :=
  ⟨by simp, ⟨[], [], by simp⟩⟩

theorem cleanStepR_ok {rooted : Bool} {acc : List GoStr} {seg : GoStr}
    (h : StackOK rooted acc) (hseg : '/' ∉ seg) :
    StackOK rooted (cleanStepR rooted acc seg) := by
  obtain ⟨hsegs, xs, ys, hacc, hxs, hys, hroot⟩ := h
  unfold cleanStepR
  by_cases h0 : seg = [] ∨ seg = gs "."
  · simpa [h0] using ⟨hsegs, xs, ys, hacc, hxs, hys, hroot⟩
  · simp only [if_neg h0]
    by_cases h1 : seg = gs ".."
    · simp only [if_pos h1]
      match hm : acc with
      | [] =>
        by_cases hr : rooted
        · simpa [hr] using stackOK_nil rooted
        · simp only [Bool.not_eq_true] at hr
          simp only [hr, Bool.false_eq_true, if_false]
          refine ⟨?_, [], [seg], by simp, by simp, by simp [h1], by simp [hr]⟩
          intro s hs
          simp at hs
          subst hs
          exact ⟨by simp [h1, gs], by simp [h1, gs], by simpa [h1] using hseg⟩
      | a :: rest =>
        subst hm
        by_cases ha : a = gs ".."
        · -- the whole stack consists of `".."` segments, and is not rooted
          have hxsnil : xs = [] := by
            cases hxm : xs with
            | nil => rfl
            | cons x xs' =>
              rw [hxm] at hacc
              have hax : a = x := by simpa using congrArg List.head? hacc
              exact absurd (hax ▸ ha) (hxs x (by simp [hxm]))
          rw [hxsnil] at hacc
          simp only [List.nil_append] at hacc
          have hrooted : rooted = false := by
            by_contra hh
            simp only [Bool.not_eq_false] at hh
            rw [hroot hh] at hacc
            exact List.cons_ne_nil a rest hacc
          simp only [if_pos ha, hrooted, Bool.false_eq_true, if_false]
          refine ⟨?_, [], seg :: a :: rest, by simp, by simp, ?_, by simp [hrooted]⟩
          · intro s hs
            rcases List.mem_cons.mp hs with h | h
            · subst h
              exact ⟨by simp [h1, gs], by simp [h1, gs], by simpa [h1] using hseg⟩
            · exact hsegs s h
          · intro s hs
            rcases List.mem_cons.mp hs with h | h
            · exact h ▸ h1
            · exact hys s (hacc ▸ h)
        · -- pop the top segment
          simp only [if_neg ha]
          cases hxm : xs with
          | nil =>
            rw [hxm] at hacc
            simp only [List.nil_append] at hacc
            exact absurd (hys a (by rw [← hacc]; exact List.mem_cons_self a rest)) ha
          | cons x xs' =>
            rw [hxm] at hacc
            have hax : a = x := by simpa using congrArg List.head? hacc
            have hrest : rest = xs' ++ ys := by simpa using congrArg List.tail hacc
            refine ⟨?_, xs', ys, hrest, ?_, hys, hroot⟩
            · intro s hs
              exact hsegs s (List.mem_cons_of_mem a hs)
            · intro s hs
              exact hxs s (by simp [hxm, hs])
    · -- push a real segment
      simp only [if_neg h1]
      refine ⟨?_, seg :: xs, ys, ?_, ?_, hys, hroot⟩
      · intro s hs
        rcases List.mem_cons.mp hs with h | h
        · subst h
          push_neg at h0
          exact ⟨h0.1, h0.2, hseg⟩
        · exact hsegs s h
      · simp [hacc]
      · intro s hs
        rcases List.mem_cons.mp hs with h | h
        · exact h ▸ h1
        · exact hxs s h

theorem foldl_cleanStepR_ok (rooted : Bool) (segs : List GoStr) (acc : List GoStr)
    (hacc : StackOK rooted acc) (hsegs : ∀ s ∈ segs, '/' ∉ s) :
    StackOK rooted (segs.foldl (cleanStepR rooted) acc) := by
  induction segs generalizing acc with
  | nil => simpa using hacc
  | cons s rest ih =>
    simp only [List.foldl_cons]
    exact ih _ (cleanStepR_ok hacc (hsegs s (by simp)))
      (fun t ht => hsegs t (by simp [ht]))

theorem cleanSegs_ok (rooted : Bool) (p : GoStr) :
    OutOK rooted (cleanSegs rooted (splitSlash p)) := by
  obtain ⟨hsegs, xs, ys, hacc, hxs, hys, hroot⟩ :=
    foldl_cleanStepR_ok rooted (splitSlash p) [] (stackOK_nil rooted)
      (fun s hs => splitSlash_no_slash hs)
  refine ⟨?_, ys.reverse, xs.reverse, ?_, ?_, ?_, ?_⟩
  · intro s hs
    exact hsegs s (by simpa [cleanSegs] using hs)
  · simp [cleanSegs, hacc]
  · intro s hs
    exact hys s (by simpa using hs)
  · intro s hs
    exact hxs s (by simpa using hs)
  · intro hr
    simp [hroot hr]

theorem joinSegs_cons_exists (s : GoStr) (rest : List GoStr) :
    ∃ t, joinSegs (s :: rest) = s ++ t := by
  cases rest with
  | nil => exact ⟨[], by simp [joinSegs]⟩
  | cons t r => exact ⟨'/' :: joinSegs (t :: r), rfl⟩

theorem splitSlash_joinSegs (out : List GoStr) (hne : out ≠ [])
    (hsegs : ∀ s ∈ out, '/' ∉ s) : splitSlash (joinSegs out) = out := by
  induction out with
  | nil => exact absurd rfl hne
  | cons s rest ih =>
    cases rest with
    | nil => simp [joinSegs, splitSlash_no_sep (hsegs s (by simp))]
    | cons t r =>
      show splitSlash (s ++ '/' :: joinSegs (t :: r)) = _
      rw [splitSlash_append, splitSlash_no_sep (hsegs s (by simp)),
        ih (by simp) (fun u hu => hsegs u (by simp [hu]))]
      rfl

theorem isRooted_append_false {s : GoStr} (t : GoStr) (hne : s ≠ [])
    (hslash : '/' ∉ s) : isRooted (s ++ t) = false := by
  cases s with
  | nil => exact absurd rfl hne
  | cons c s' =>
    have hc : c ≠ '/' := fun h => hslash (by simp [h])
    simp [isRooted, hc]

theorem clean_shape (p : GoStr) :
    clean p = gs "." ∨ clean p = gs "/" ∨
    ∃ out, out ≠ [] ∧ OutOK (isRooted p) out ∧
      clean p = (if isRooted p then '/' :: joinSegs out else joinSegs out) ∧
      splitSlash (clean p) = (if isRooted p then [] :: out else out) := by
  have hok := cleanSegs_ok (isRooted p) p
  by_cases hne : cleanSegs (isRooted p) (splitSlash p) = []
  · cases hr : isRooted p
    · left; simp [clean, hr, hr ▸ hne]
    · right; left; simp [clean, hr, hr ▸ hne]
  · right; right
    refine ⟨cleanSegs (isRooted p) (splitSlash p), hne, hok, ?_, ?_⟩
    · cases hr : isRooted p <;> simp [clean, hr, hr ▸ hne]
    · have hsp := splitSlash_joinSegs _ hne (fun s hs => (hok.segs s hs).2.2)
      cases hr : isRooted p
      · simpa [clean, hr, hr ▸ hne] using hr ▸ hsp
      · rw [show clean p = '/' :: joinSegs (cleanSegs true (splitSlash p)) from by
          simp [clean, hr, hr ▸ hne]]
        simp only [hr, if_true]
        rw [show splitSlash ('/' :: joinSegs (cleanSegs true (splitSlash p)))
            = [] :: splitSlash (joinSegs (cleanSegs true (splitSlash p))) from by
          simp [splitSlash]]
        rw [hr] at hsp
        rw [hsp]

theorem clean_ne_nil (p : GoStr) : clean p ≠ [] := by
  rcases clean_shape p with h | h | ⟨out, hne, hok, hrender, _⟩
  · rw [h]; simp [gs]
  · rw [h]; simp [gs]
  · rw [hrender]
    cases hr : isRooted p
    · simp only [Bool.false_eq_true, if_false]
      cases out with
      | nil => exact absurd rfl hne
      | cons s rest =>
        obtain ⟨t, ht⟩ := joinSegs_cons_exists s rest
        rw [ht]
        have hs := (hok.segs s (by simp)).1
        cases s with
        | nil => exact absurd rfl hs
        | cons c s' => simp
    · simp

theorem isRooted_clean (p : GoStr) : isRooted (clean p) = isRooted p := by
  have hok := cleanSegs_ok (isRooted p) p
  simp only [clean]
  cases hr : isRooted p
  · rw [hr] at hok
    simp only [Bool.false_eq_true, if_false]
    by_cases hz : cleanSegs false (splitSlash p) = []
    · simp [hz, gs, isRooted]
    · simp only [if_neg hz]
      rcases hout : cleanSegs false (splitSlash p) with _ | ⟨s, rest⟩
      · exact absurd hout hz
      · obtain ⟨t, ht⟩ := joinSegs_cons_exists s rest
        rw [ht]
        exact isRooted_append_false t (hok.segs s (by rw [hout]; simp)).1
          (hok.segs s (by rw [hout]; simp)).2.2
  · simp only [if_true]
    by_cases hz : cleanSegs true (splitSlash p) = []
    · simp [hz, gs, isRooted]
    · simp [hz, isRooted]

example : properRoot (gs "out") = true := by decide
example : properRoot (gs "/srv/data") = true := by decide
example : properRoot (gs "../downloads") = true := by decide
example : properRoot (gs "..") = false := by decide
example : properRoot (gs "../..") = false := by decide

theorem prefix_drop {r q : GoStr} (h : (r ++ ['/']).isPrefixOf q = true) :
    q = r ++ '/' :: q.drop (r.length + 1) := by
  obtain ⟨t, ht⟩ := isPrefixOf_eq.mp h
  have hlen : (r ++ ['/']).length = r.length + 1 := by simp
  have hdrop : q.drop (r.length + 1) = t := by
    rw [← ht, ← hlen, List.drop_left]
  rw [hdrop, ← ht]
  simp

/-- Soundness of the extractor's check for proper roots: an entry that passes
the `HasPrefix` test lands strictly inside the cleaned extraction root. -/
theorem check_sound (root name : GoStr) (hproper : properRoot root = true)
    (hcheck : pathCheck root name = true) :
    descendsFrom (joinPath root name) (clean root) = true := by
  unfold pathCheck at hcheck
  have hqclean : ∃ s, joinPath root name = clean s := by
    by_cases hr0 : root = []
    · by_cases hn0 : name = []
      · exfalso
        have hnil : joinPath root name = [] := by simp [joinPath, hr0, hn0]
        rw [hnil] at hcheck
        have := isPrefixOf_eq.mp hcheck
        simp at this
      · exact ⟨name, by simp [joinPath, hr0, hn0]⟩
    · by_cases hn0 : name = []
      · exact ⟨root, by simp [joinPath, hr0, hn0]⟩
      · exact ⟨root ++ '/' :: name, by simp [joinPath, hr0, hn0]⟩
  obtain ⟨s, hs⟩ := hqclean
  unfold descendsFrom
  rw [hcheck, Bool.true_and, List.all_eq_true]
  intro x hx
  -- decompose the target path after the prefix
  have hqr := prefix_drop hcheck
  set r := clean root with hrdef
  set q := joinPath root name with hqdef
  set t := q.drop (r.length + 1) with htdef
  have hsq : splitSlash q = splitSlash r ++ splitSlash t := by
    conv_lhs => rw [hqr]
    exact splitSlash_append r t
  rcases clean_shape s with hshape | hshape | ⟨out, hne, hok, hrender, hsplit⟩
  · exfalso
    have hlen := (isPrefixOf_eq.mp hcheck).length_le
    rw [hs, hshape] at hlen
    simp [gs] at hlen
    exact clean_ne_nil root hlen
  · exfalso
    have hlen := (isPrefixOf_eq.mp hcheck).length_le
    rw [hs, hshape] at hlen
    simp [gs] at hlen
    exact clean_ne_nil root hlen
  · obtain ⟨ds, ns, houtsplit, hds, hns, hdsroot⟩ := hok.split
    cases hsr : isRooted s
    · -- relative target path: need a real segment in the cleaned root
      rw [hsr] at hrender hsplit
      simp only [Bool.false_eq_true, if_false] at hrender hsplit
      have hq_nonrooted : isRooted q = false := by
        rw [hs, hrender]
        cases hout : out with
        | nil => exact absurd hout hne
        | cons s0 out' =>
          obtain ⟨t0, ht0⟩ := joinSegs_cons_exists s0 out'
          rw [ht0]
          exact isRooted_append_false t0 (hok.segs s0 (by rw [hout]; simp)).1
            (hok.segs s0 (by rw [hout]; simp)).2.2
      have hx0 : ∃ x₀ ∈ splitSlash r, realSeg x₀ = true := by
        simp only [properRoot, Bool.or_eq_true] at hproper
        rcases hproper with hrooted | hany
        · exfalso
          have hrrooted : isRooted r = true := by
            rw [hrdef, isRooted_clean]; exact hrooted
          rcases hrc : r with _ | ⟨c, r''⟩
          · rw [hrc] at hrrooted; simp [isRooted] at hrrooted
          · rw [hrc] at hrrooted
            simp only [isRooted, beq_iff_eq] at hrrooted
            have : isRooted q = true := by
              rw [hqr, hrc]
              simp [isRooted, hrrooted]
            rw [hq_nonrooted] at this
            exact Bool.false_ne_true this
        · exact List.any_eq_true.mp hany
      obtain ⟨x₀, hx₀mem, hx₀real⟩ := hx0
      -- out = splitSlash r ++ splitSlash t = ds ++ ns
      have heq : splitSlash r ++ splitSlash t = ds ++ ns := by
        rw [← hsq, hs, hsplit, houtsplit]
      have hxout : x ∈ out := by
        have : x ∈ splitSlash q := by rw [hsq]; exact List.mem_append_right _ hx
        rw [hs, hsplit] at this
        exact this
      have hxns : x ∈ ns := by
        rcases List.append_eq_append_iff.mp heq with ⟨a', ha1, ha2⟩ | ⟨c', hc1, hc2⟩
        · exfalso
          have : x₀ ∈ ds := by rw [ha1]; exact List.mem_append_left _ hx₀mem
          have := hds x₀ this
          rw [realSeg_iff] at hx₀real
          exact hx₀real.2.2 this
        · rw [hc2]
          exact List.mem_append_right _ hx
      rw [realSeg_iff]
      exact ⟨(hok.segs x hxout).1, (hok.segs x hxout).2.1, hns x hxns⟩
    · -- absolute target path: the cleaned segments contain no ".." at all
      rw [hsr] at hrender hsplit
      simp only [if_true] at hrender hsplit
      have hdsnil : ds = [] := hdsroot hsr
      rw [hdsnil, List.nil_append] at houtsplit
      -- splitSlash t is a tail of [] :: out
      have heq : [] :: out = splitSlash r ++ splitSlash t := by
        rw [← hsq, hs, hsplit]
      have hPt : splitSlash t = ([] :: out).drop (splitSlash r).length := by
        rw [heq, List.drop_left]
      obtain ⟨k, hk⟩ : ∃ k, (splitSlash r).length = k + 1 := by
        rcases hrc : splitSlash r with _ | ⟨a, l⟩
        · exact absurd hrc (splitSlash_ne_nil r)
        · exact ⟨l.length, by simp⟩
      have hxout : x ∈ out := by
        have hx' : x ∈ ([] :: out).drop (k + 1) := by
          rw [← hk, ← hPt]; exact hx
        simp only [List.drop_succ_cons] at hx'
        exact (List.drop_suffix k out).subset hx'
      rw [realSeg_iff]
      refine ⟨(hok.segs x hxout).1, (hok.segs x hxout).2.1, ?_⟩
      rw [houtsplit] at hxout
      exact hns x hxout

/-- C1 (amended): for every extraction root that is absolute or whose cleaned
form contains at least one real segment, every path written by the extraction
loop lies strictly under the cleaned root; entries that would escape are
skipped.  (For a root whose cleaned form is a bare chain of `".."` segments
the guarantee fails; see the counterexample.) -/
theorem extractArchive_no_escape (extractDir : GoStr) (entries : List TarHeader)
    (hproper : properRoot extractDir = true) :
    ∀ p ∈ entryTargets extractDir entries, descendsFrom p (clean extractDir) = true := by
  intro p hp
  rw [entryTargets, List.mem_filterMap] at hp
  obtain ⟨h, _, hcond⟩ := hp
  by_cases hchk : pathCheck extractDir h.name = true
  · rw [if_pos hchk] at hcond
    have hp' : joinPath extractDir h.name = p := by
      cases htf : h.typeflag <;> rw [htf] at hcond <;>
        first
        | exact Option.some_injective _ hcond
        | exact absurd hcond (by simp)
    rw [← hp']
    exact check_sound extractDir h.name hproper hchk
  · rw [if_neg hchk] at hcond
    exact absurd hcond (by simp)

/-- C1 counterexample: with extraction root `".."`, the entry named `"../x"`
passes the containment check and is written to `"../../x"`, which does not
lie under the root. -/
theorem extractArchive_escape_counterexample :
    entryTargets (gs "..") [⟨gs "../x", TarType.reg, []⟩] = [gs "../../x"] ∧
    descendsFrom (gs "../../x") (clean (gs "..")) = false := by decide

/-- Witness for `extractArchive_no_escape` at a concrete proper root. -/
theorem extractArchive_no_escape_witness :
    properRoot (gs "out") = true ∧
    descendsFrom (joinPath (gs "out") (gs "a/b.txt")) (clean (gs "out")) = true :=
  ⟨by decide,
    extractArchive_no_escape (gs "out") [⟨gs "a/b.txt", TarType.reg, []⟩]
      (by decide) _ (by decide)⟩

/-- C2 (amended): for proper roots the containment check passes exactly on
entries whose joined, normalized target is a strict descendant of the cleaned
root (an entry resolving to the root itself is skipped); and a skipped entry
leaves the processing of the remaining entries unchanged. -/
theorem pathCheck_characterization :
    (∀ root name, properRoot root = true →
      (pathCheck root name = true ↔
        descendsFrom (joinPath root name) (clean root) = true)) ∧
    (∀ (root : GoStr) (h : TarHeader) (rest : List TarHeader),
      pathCheck root h.name = false →
      entryTargets root (h :: rest) = entryTargets root rest) := by
  constructor
  · intro root name hproper
    constructor
    · exact check_sound root name hproper
    · intro hdesc
      rw [descendsFrom, Bool.and_eq_true] at hdesc
      exact hdesc.1
  · intro root h rest hfalse
    simp [entryTargets, List.filterMap_cons, hfalse]

/-- C2 counterexample: (a) entry `"."` under root `"a"` normalizes to the
root itself but is skipped, contradicting "equal to the root is processed";
(b) entry `"../x"` under root `".."` normalizes outside the root but is
processed, contradicting "resolving outside the root is skipped". -/
theorem pathCheck_counterexample :
    (joinPath (gs "a") (gs ".") = clean (gs "a") ∧
      pathCheck (gs "a") (gs ".") = false) ∧
    (pathCheck (gs "..") (gs "../x") = true ∧
      descendsFrom (joinPath (gs "..") (gs "../x")) (clean (gs "..")) = false) := by
  decide

/-- Witness for `pathCheck_characterization` at concrete inputs. -/
theorem pathCheck_characterization_witness :
    (pathCheck (gs "out") (gs "a.txt") = true ↔
      descendsFrom (joinPath (gs "out") (gs "a.txt")) (clean (gs "out")) = true) ∧
    entryTargets (gs "out") [⟨gs "../evil", TarType.reg, []⟩] =
      entryTargets (gs "out") [] :=
  ⟨pathCheck_characterization.1 (gs "out") (gs "a.txt") (by decide),
    pathCheck_characterization.2 (gs "out") ⟨gs "../evil", TarType.reg, []⟩ [] (by decide)⟩

theorem dedupAux_mem (seen : List GoStr) (l : List GoStr) (x : GoStr) :
    x ∈ dedupAux seen l ↔ x ∈ l ∧ x ∉ seen := by
  induction l generalizing seen with
  | nil => simp [dedupAux]
  | cons y rest ih =>
    by_cases hy : y ∈ seen
    · rw [dedupAux, if_pos hy, ih]
      constructor
      · rintro ⟨h1, h2⟩
        exact ⟨List.mem_cons_of_mem y h1, h2⟩
      · rintro ⟨h1, h2⟩
        rcases List.mem_cons.mp h1 with h | h
        · exact absurd (h ▸ hy) h2
        · exact ⟨h, h2⟩
    · rw [dedupAux, if_neg hy]
      simp only [List.mem_cons, ih]
      constructor
      · rintro (h | ⟨h1, h2⟩)
        · subst h; exact ⟨Or.inl rfl, hy⟩
        · refine ⟨Or.inr h1, fun hc => h2 (by simp [hc])⟩
      · rintro ⟨h1 | h1, h2⟩
        · exact Or.inl h1
        · by_cases hxy : x = y
          · exact Or.inl hxy
          · exact Or.inr ⟨h1, by simp [hxy, h2]⟩

theorem dedupAux_nodup (seen : List GoStr) (l : List GoStr) :
    (dedupAux seen l).Nodup := by
  induction l generalizing seen with
  | nil => simp [dedupAux]
  | cons y rest ih =>
    by_cases hy : y ∈ seen
    · rw [dedupAux, if_pos hy]; exact ih seen
    · rw [dedupAux, if_neg hy]
      refine List.Nodup.cons ?_ (ih (y :: seen))
      intro hc
      exact ((dedupAux_mem (y :: seen) rest y).mp hc).2 (by simp)

theorem dedupFirst_mem (l : List GoStr) (x : GoStr) : x ∈ dedupFirst l ↔ x ∈ l := by
  rw [dedupFirst, dedupAux_mem]
  simp

theorem dedupFirst_nodup (l : List GoStr) : (dedupFirst l).Nodup :=
  dedupAux_nodup [] l

theorem taskFor_URL (sbom : SPDXSBOM) (url : GoStr) : (taskFor sbom url).URL = url := rfl

theorem isTarball_iff (u : GoStr) : isTarball u = true ↔
    (gs ".tar.gz") <:+: lowerStr u ∨ (gs ".tar.xz") <:+: lowerStr u ∨
    (gs ".tgz") <:+: lowerStr u ∨ (gs ".tar.bz2") <:+: lowerStr u := by
  simp [isTarball, containsSub_iff, or_assoc]

theorem qualifies_iff (p : Package) : qualifies p = true ↔
    p.DownloadLocation ≠ [] ∧ p.DownloadLocation ≠ gs "NOASSERTION" ∧
    (gs "http") <+: p.DownloadLocation ∧ isTarball p.DownloadLocation = true := by
  simp [qualifies, isPrefixOf_eq, and_assoc]

/-- C3 (amended): a URL is carried by some returned `DownloadTask` iff some
package of the document has exactly that download location and it is
non-empty, not `"NOASSERTION"`, starts with the case-sensitive prefix
`"http"`, and *contains* (case-insensitively, anywhere in the URL) one of
`.tar.gz`, `.tar.xz`, `.tgz`, `.tar.bz2`. -/
theorem resolver_url_inclusion (sbom : SPDXSBOM) (order : List GoStr)
    (horder : order.Perm (mapKeys sbom)) (u : GoStr) :
    (∃ t ∈ extractPackageMappingsFromData sbom order, t.URL = u) ↔
    (∃ p ∈ sbom.packages,
      p.DownloadLocation = u ∧ p.DownloadLocation ≠ [] ∧
      p.DownloadLocation ≠ gs "NOASSERTION" ∧
      (gs "http") <+: p.DownloadLocation ∧
      ((gs ".tar.gz") <:+: lowerStr p.DownloadLocation ∨
       (gs ".tar.xz") <:+: lowerStr p.DownloadLocation ∨
       (gs ".tgz") <:+: lowerStr p.DownloadLocation ∨
       (gs ".tar.bz2") <:+: lowerStr p.DownloadLocation)) := by
  have hmem : (∃ t ∈ extractPackageMappingsFromData sbom order, t.URL = u) ↔ u ∈ order := by
    constructor
    · rintro ⟨t, ht, hturl⟩
      rw [extractPackageMappingsFromData, List.mem_map] at ht
      obtain ⟨u', hu', ht'⟩ := ht
      have : u' = u := by rw [← hturl, ← ht', taskFor_URL]
      exact this ▸ hu'
    · intro hu
      exact ⟨taskFor sbom u, List.mem_map_of_mem _ hu, rfl⟩
  rw [hmem, horder.mem_iff, mapKeys, dedupFirst_mem, List.mem_map]
  constructor
  · rintro ⟨p, hp, hdl⟩
    rw [List.mem_filter] at hp
    obtain ⟨h1, h2, h3, h4⟩ := (qualifies_iff p).mp hp.2
    rw [isTarball_iff] at h4
    exact ⟨p, hp.1, hdl, h1, h2, h3, h4⟩
  · rintro ⟨p, hp, hdl, h1, h2, h3, h4⟩
    refine ⟨p, List.mem_filter.mpr ⟨hp, (qualifies_iff p).mpr ⟨h1, h2, h3, ?_⟩⟩, hdl⟩
    rw [isTarball_iff]
    exact h4

/-- Witness for `resolver_url_inclusion` at a concrete document. -/
theorem resolver_url_inclusion_witness :
    ∃ t ∈ extractPackageMappingsFromData
      ⟨[⟨gs "S1", gs "glibc", gs "https://x/glibc-2.41.tar.gz"⟩], []⟩
      (mapKeys ⟨[⟨gs "S1", gs "glibc", gs "https://x/glibc-2.41.tar.gz"⟩], []⟩),
      t.URL = gs "https://x/glibc-2.41.tar.gz" :=
  (resolver_url_inclusion
      ⟨[⟨gs "S1", gs "glibc", gs "https://x/glibc-2.41.tar.gz"⟩], []⟩
      _ (List.Perm.refl _) (gs "https://x/glibc-2.41.tar.gz")).mpr
    ⟨⟨gs "S1", gs "glibc", gs "https://x/glibc-2.41.tar.gz"⟩, by decide, by decide,
      by decide, by decide, by decide, by decide⟩

/-- C3 counterexample: the URL `https://e.com/a.tar.gz.sig` fails the claim's
suffix test (its path ends in `.sig`), yet the resolver produces a
`DownloadTask` for it, because the code tests `strings.Contains`, not a
suffix of the path component. -/
theorem resolver_url_inclusion_counterexample :
    specCandidate ⟨gs "S1", gs "foo", gs "https://e.com/a.tar.gz.sig"⟩ = false ∧
    extractPackageMappingsFromData
        ⟨[⟨gs "S1", gs "foo", gs "https://e.com/a.tar.gz.sig"⟩], []⟩
        (mapKeys ⟨[⟨gs "S1", gs "foo", gs "https://e.com/a.tar.gz.sig"⟩], []⟩) =
      [⟨gs "https://e.com/a.tar.gz.sig", [gs "unknown"]⟩] := by decide

theorem countP_eq_one_of_nodup {l : List GoStr} (hnd : l.Nodup) {u : GoStr}
    (hu : u ∈ l) : l.countP (fun x => x == u) = 1 := by
  induction l with
  | nil => simp at hu
  | cons y rest ih =>
    rcases List.mem_cons.mp hu with h | h
    · subst h
      have hnotin : u ∉ rest := (List.nodup_cons.mp hnd).1
      rw [List.countP_cons_of_pos _ _ (by simp)]
      have hzero : rest.countP (fun x => x == u) = 0 := by
        rw [List.countP_eq_zero]
        intro a ha
        simp only [beq_iff_eq]
        intro hau
        exact hnotin (hau ▸ ha)
      rw [hzero]
    · by_cases hyu : y = u
      · exact absurd (hyu ▸ h) (List.nodup_cons.mp hnd).1
      · rw [List.countP_cons_of_neg _ _ (by simp [hyu])]
        exact ih (List.nodup_cons.mp hnd).2 h

theorem mem_resolve_eq_taskFor {sbom : SPDXSBOM} {order : List GoStr}
    {t : PackageMapping} (ht : t ∈ extractPackageMappingsFromData sbom order) :
    t = taskFor sbom t.URL := by
  rw [extractPackageMappingsFromData, List.mem_map] at ht
  obtain ⟨u', _, ht'⟩ := ht
  rw [← ht', taskFor_URL]

/-- C4: (a) when exactly two qualifying packages carry a URL, the resolver
returns exactly one task for that URL, whose owning-name set is duplicate-free
and is the union of the two packages' contributed owner names; (b) when a
URL's single qualifying package has no resolved owners, the task's
owning-name set is exactly `["unknown"]`. -/
theorem resolver_dedup_union :
    (∀ (sbom : SPDXSBOM) (order : List GoStr), order.Perm (mapKeys sbom) →
      ∀ (u : GoStr) (p1 p2 : Package),
      sbom.packages.filter (fun p => qualifies p && p.DownloadLocation == u) = [p1, p2] →
      ((extractPackageMappingsFromData sbom order).filter
          (fun t => t.URL == u)).length = 1 ∧
      ∀ t ∈ extractPackageMappingsFromData sbom order, t.URL = u →
        t.APKPackages.Nodup ∧
        ∀ x, x ∈ t.APKPackages ↔
          (x ∈ ownersForPkg sbom p1 ∨ x ∈ ownersForPkg sbom p2)) ∧
    (∀ (sbom : SPDXSBOM) (order : List GoStr), order.Perm (mapKeys sbom) →
      ∀ (u : GoStr) (p : Package),
      sbom.packages.filter (fun q => qualifies q && q.DownloadLocation == u) = [p] →
      sourceToAPKs sbom.packages sbom.relationships p.SPDXID = [] →
      ∀ t ∈ extractPackageMappingsFromData sbom order, t.URL = u →
        t.APKPackages = [gs "unknown"]) := by
  have hfilterlen : ∀ (sbom : SPDXSBOM) (order : List GoStr), order.Perm (mapKeys sbom) →
      ∀ u : GoStr, u ∈ mapKeys sbom →
      ((extractPackageMappingsFromData sbom order).filter
        (fun t => t.URL == u)).length = 1 := by
    intro sbom order horder u hu
    rw [extractPackageMappingsFromData, List.filter_map]
    have hcomp : ((fun t : PackageMapping => t.URL == u) ∘ taskFor sbom)
        = fun u' => u' == u := by
      funext u'
      simp [taskFor]
    rw [hcomp, List.length_map, ← List.countP_eq_length_filter, horder.countP_eq]
    exact countP_eq_one_of_nodup (dedupFirst_nodup _) hu
  have hmemkeys : ∀ (sbom : SPDXSBOM) (u : GoStr) (p : Package),
      p ∈ sbom.packages → qualifies p = true → p.DownloadLocation = u →
      u ∈ mapKeys sbom := by
    intro sbom u p hp hq hdl
    rw [mapKeys, dedupFirst_mem, List.mem_map]
    exact ⟨p, List.mem_filter.mpr ⟨hp, hq⟩, hdl⟩
  constructor
  · intro sbom order horder u p1 p2 hfilter
    have hp1 : p1 ∈ sbom.packages.filter (fun p => qualifies p && p.DownloadLocation == u) := by
      rw [hfilter]; simp
    rw [List.mem_filter, Bool.and_eq_true, beq_iff_eq] at hp1
    have hu : u ∈ mapKeys sbom :=
      hmemkeys sbom u p1 hp1.1 hp1.2.1 hp1.2.2
    refine ⟨hfilterlen sbom order horder u hu, ?_⟩
    intro t ht hturl
    have hteq := mem_resolve_eq_taskFor ht
    rw [hturl] at hteq
    have howners : t.APKPackages = dedupFirst (ownersForPkg sbom p1 ++ ownersForPkg sbom p2) := by
      rw [hteq]
      show dedupFirst (urlToPackages sbom u) = _
      rw [urlToPackages, hfilter]
      simp [List.flatMap_cons]
    constructor
    · rw [howners]; exact dedupFirst_nodup _
    · intro x
      rw [howners, dedupFirst_mem, List.mem_append]
  · intro sbom order horder u p hfilter hsrc
    intro t ht hturl
    have hteq := mem_resolve_eq_taskFor ht
    rw [hturl] at hteq
    rw [hteq]
    show dedupFirst (urlToPackages sbom u) = _
    rw [urlToPackages, hfilter]
    simp [List.flatMap_cons, ownersForPkg, hsrc, dedupFirst, dedupAux]

/-- Witness for `resolver_dedup_union` at concrete documents. -/
theorem resolver_dedup_union_witness :
    ((extractPackageMappingsFromData docShared (mapKeys docShared)).filter
        (fun t => t.URL == gs "https://x/a.tar.gz")).length = 1 ∧
    (taskFor docLone (gs "https://x/a.tar.gz")).APKPackages = [gs "unknown"] :=
  ⟨(resolver_dedup_union.1 docShared (mapKeys docShared) (List.Perm.refl _)
      (gs "https://x/a.tar.gz")
      ⟨gs "SA", gs "src-a", gs "https://x/a.tar.gz"⟩
      ⟨gs "SB", gs "src-b", gs "https://x/a.tar.gz"⟩ (by decide)).1,
    resolver_dedup_union.2 docLone (mapKeys docLone) (List.Perm.refl _)
      (gs "https://x/a.tar.gz")
      ⟨gs "SA", gs "src-a", gs "https://x/a.tar.gz"⟩ (by decide) (by decide)
      (taskFor docLone (gs "https://x/a.tar.gz")) (by decide) rfl⟩

/-- C8 counterexample: the final loop of `extractPackageMappingsFromData`
ranges over a Go map, whose iteration order is randomized per run.  Both
orders below are permutations of the key set, so both are possible runs on
the same fixed document, and they return the task list in different orders. -/
theorem resolver_order_counterexample :
    ([gs "https://x/a.tar.gz", gs "https://x/b.tar.gz"].Perm (mapKeys docTwoURLs)) ∧
    ([gs "https://x/b.tar.gz", gs "https://x/a.tar.gz"].Perm (mapKeys docTwoURLs)) ∧
    extractPackageMappingsFromData docTwoURLs
        [gs "https://x/a.tar.gz", gs "https://x/b.tar.gz"] ≠
      extractPackageMappingsFromData docTwoURLs
        [gs "https://x/b.tar.gz", gs "https://x/a.tar.gz"] := by decide

/-- C8 (amended): the task list is stable run-to-run only up to permutation:
any two runs (map iteration orders) of the resolver on a fixed document
return permutations of the same task list. -/
theorem resolver_perm_stable (sbom : SPDXSBOM) (o1 o2 : List GoStr)
    (h1 : o1.Perm (mapKeys sbom)) (h2 : o2.Perm (mapKeys sbom)) :
    (extractPackageMappingsFromData sbom o1).Perm
      (extractPackageMappingsFromData sbom o2) :=
  (h1.trans h2.symm).map (taskFor sbom)

/-- Witness for `resolver_perm_stable` at a concrete document. -/
theorem resolver_perm_stable_witness :
    (extractPackageMappingsFromData docTwoURLs
        [gs "https://x/a.tar.gz", gs "https://x/b.tar.gz"]).Perm
      (extractPackageMappingsFromData docTwoURLs
        [gs "https://x/b.tar.gz", gs "https://x/a.tar.gz"]) :=
  resolver_perm_stable docTwoURLs _ _ (by decide) (by decide)

/-- C9: a `GENERATED_FROM` relationship whose `spdxElementId` matches no
package is skipped without effect: the reverse index and the resolver's
output are unchanged, and resolution still returns normally (the model is
total after JSON parsing succeeds). -/
theorem resolver_unknown_rel_skipped (pkgs : List Package)
    (l1 l2 : List Relationship) (rel : Relationship)
    (hnone : packageMap pkgs rel.SpdxElementId = none) :
    (∀ src, sourceToAPKs pkgs (l1 ++ rel :: l2) src = sourceToAPKs pkgs (l1 ++ l2) src) ∧
    (∀ order, extractPackageMappingsFromData ⟨pkgs, l1 ++ rel :: l2⟩ order =
      extractPackageMappingsFromData ⟨pkgs, l1 ++ l2⟩ order) := by
  have hsrc : ∀ src, sourceToAPKs pkgs (l1 ++ rel :: l2) src
      = sourceToAPKs pkgs (l1 ++ l2) src := by
    intro src
    rw [sourceToAPKs, sourceToAPKs, List.filterMap_append, List.filterMap_append,
      List.filterMap_cons]
    have hnil : (if rel.RelationshipType == gs "GENERATED_FROM" then
        match packageMap pkgs rel.SpdxElementId with
        | some apkPkg => if rel.RelatedSpdxElement == src then some apkPkg.name else none
        | none => none
      else none) = none := by
      rw [hnone]
      split <;> rfl
    rw [hnil]
  have howners : ownersForPkg ⟨pkgs, l1 ++ rel :: l2⟩ = ownersForPkg ⟨pkgs, l1 ++ l2⟩ := by
    funext p
    simp only [ownersForPkg]
    rw [hsrc]
  have htask : taskFor ⟨pkgs, l1 ++ rel :: l2⟩ = taskFor ⟨pkgs, l1 ++ l2⟩ := by
    funext u
    simp only [taskFor, urlToPackages, howners]
  refine ⟨hsrc, fun order => ?_⟩
  rw [extractPackageMappingsFromData, extractPackageMappingsFromData, htask]

/-- Witness for `resolver_unknown_rel_skipped` at a concrete document. -/
theorem resolver_unknown_rel_skipped_witness :
    sourceToAPKs [⟨gs "S1", gs "glibc", gs "https://x/glibc.tar.gz"⟩]
        ([] ++ ⟨gs "MISSING", gs "GENERATED_FROM", gs "S1"⟩ :: []) (gs "S1")
      = sourceToAPKs [⟨gs "S1", gs "glibc", gs "https://x/glibc.tar.gz"⟩]
        ([] ++ []) (gs "S1") :=
  (resolver_unknown_rel_skipped
      [⟨gs "S1", gs "glibc", gs "https://x/glibc.tar.gz"⟩] [] []
      ⟨gs "MISSING", gs "GENERATED_FROM", gs "S1"⟩ (by decide)).1 (gs "S1")

theorem collect_counts (archivesDir : GoStr) (results : List DownloadResult)
    (acc : DownloadSummary) :
    (results.foldl (collectStep archivesDir) acc).SuccessCount
      + (results.foldl (collectStep archivesDir) acc).FailureCount
    = acc.SuccessCount + acc.FailureCount + results.length := by
  induction results generalizing acc with
  | nil => simp
  | cons r rest ih =>
    rw [List.foldl_cons, ih]
    rcases hr : r.err with _ | m <;> simp [collectStep, hr] <;> omega

theorem collect_failure_count (archivesDir : GoStr) (results : List DownloadResult)
    (acc : DownloadSummary) :
    (results.foldl (collectStep archivesDir) acc).FailureCount
    = acc.FailureCount + (results.filter (fun r => r.err.isSome)).length := by
  induction results generalizing acc with
  | nil => simp
  | cons r rest ih =>
    rw [List.foldl_cons, ih]
    rcases hr : r.err with _ | m <;> simp [collectStep, hr] <;> omega

theorem collect_success_count (archivesDir : GoStr) (results : List DownloadResult)
    (acc : DownloadSummary) :
    (results.foldl (collectStep archivesDir) acc).SuccessCount
    = acc.SuccessCount + (results.filter (fun r => r.err.isNone)).length := by
  induction results generalizing acc with
  | nil => simp
  | cons r rest ih =>
    rw [List.foldl_cons, ih]
    rcases hr : r.err with _ | m <;> simp [collectStep, hr] <;> omega

/-- C5: with any `concurrency ≥ 1` and any result-arrival order, the engine
produces exactly one outcome per submitted task — the outcome list is a
permutation of one `workerRun` result per mapping, its length equals the
number of tasks, and `SuccessCount + FailureCount` equals the number of
tasks; the summary is built only after the whole outcome list is drained. -/
theorem engine_one_outcome_per_task (mappings : List PackageMapping)
    (archivesDir : GoStr) (concurrency : Nat) (envOf : GoStr → IOEnv)
    (arrival : List PackageMapping)
    (hconc : 1 ≤ concurrency) (harr : arrival.Perm mappings) :
    (arrival.map (workerRun envOf)).Perm (mappings.map (workerRun envOf)) ∧
    (arrival.map (workerRun envOf)).length = mappings.length ∧
    (downloadConcurrently mappings archivesDir concurrency envOf arrival).SuccessCount
      + (downloadConcurrently mappings archivesDir concurrency envOf arrival).FailureCount
      = mappings.length := by
  refine ⟨harr.map (workerRun envOf), by simp [harr.length_eq], ?_⟩
  rw [downloadConcurrently, collect_counts]
  simp [harr.length_eq]

/-- Witness for `engine_one_outcome_per_task` at a concrete task list. -/
theorem engine_one_outcome_per_task_witness :
    (downloadConcurrently [⟨gs "https://x/a.tar.gz", [gs "a"]⟩] (gs "d") 1
        (fun _ => ⟨NetResult.resp ⟨200, gs "200 OK"⟩, none, none⟩)
        [⟨gs "https://x/a.tar.gz", [gs "a"]⟩]).SuccessCount
      + (downloadConcurrently [⟨gs "https://x/a.tar.gz", [gs "a"]⟩] (gs "d") 1
        (fun _ => ⟨NetResult.resp ⟨200, gs "200 OK"⟩, none, none⟩)
        [⟨gs "https://x/a.tar.gz", [gs "a"]⟩]).FailureCount = 1 :=
  (engine_one_outcome_per_task [⟨gs "https://x/a.tar.gz", [gs "a"]⟩] (gs "d") 1
    (fun _ => ⟨NetResult.resp ⟨200, gs "200 OK"⟩, none, none⟩)
    [⟨gs "https://x/a.tar.gz", [gs "a"]⟩] (by decide) (List.Perm.refl _)).2.2

/-- C6 counterexample: a response with the 2xx status 201 and error-free disk
writes still yields a failure outcome, because the code compares the status
against exactly `http.StatusOK` (200). -/
theorem download_status_counterexample :
    (200 ≤ 201 ∧ 201 < 300) ∧
    downloadFileToDir ⟨NetResult.resp ⟨201, gs "201 Created"⟩, none, none⟩
      = some (gs "bad status: 201 Created") := by decide

/-- C6 (amended): a task's outcome is a success exactly when the transport
succeeds, the status is exactly 200, and both disk writes succeed; every
failure carries a non-empty cause; the outcome of a task depends only on its
own I/O behaviour (so one task's failure cannot change another's outcome);
and the failure/success counters count exactly the failed/successful
outcomes. -/
theorem download_outcome_characterization :
    (∀ env : IOEnv, downloadFileToDir env = none ↔
      (∃ r : HttpResponse, env.net = NetResult.resp r ∧ r.statusCode = 200) ∧
      env.createErr = none ∧ env.copyErr = none) ∧
    (∀ (env : IOEnv) (m : GoStr), downloadFileToDir env = some m → m ≠ []) ∧
    (∀ (envOf envOf' : GoStr → IOEnv) (mp : PackageMapping),
      envOf mp.URL = envOf' mp.URL → workerRun envOf mp = workerRun envOf' mp) ∧
    (∀ (mappings : List PackageMapping) (archivesDir : GoStr) (concurrency : Nat)
       (envOf : GoStr → IOEnv) (arrival : List PackageMapping),
      (downloadConcurrently mappings archivesDir concurrency envOf arrival).FailureCount
        = ((arrival.map (workerRun envOf)).filter (fun r => r.err.isSome)).length ∧
      (downloadConcurrently mappings archivesDir concurrency envOf arrival).SuccessCount
        = ((arrival.map (workerRun envOf)).filter (fun r => r.err.isNone)).length) := by
  refine ⟨?_, ?_, ?_, ?_⟩
  · intro env
    rcases env with ⟨net, createErr, copyErr⟩
    rcases net with m | r
    · simp [downloadFileToDir]
    · by_cases hsc : r.statusCode = 200
      · rcases createErr with _ | m
        · rcases copyErr with _ | m
          · simp [downloadFileToDir, hsc]
          · simp [downloadFileToDir, hsc]
        · simp [downloadFileToDir, hsc]
      · simp [downloadFileToDir, hsc]
  · intro env m hm
    rcases env with ⟨net, createErr, copyErr⟩
    rcases net with m' | r
    · simp [downloadFileToDir] at hm
      simp [← hm, gs]
    · by_cases hsc : r.statusCode = 200
      · rcases createErr with _ | m'
        · rcases copyErr with _ | m'
          · simp [downloadFileToDir, hsc] at hm
          · simp [downloadFileToDir, hsc] at hm
            simp [← hm, gs]
        · simp [downloadFileToDir, hsc] at hm
          simp [← hm, gs]
      · simp [downloadFileToDir, hsc] at hm
        simp [← hm, gs]
  · intro envOf envOf' mp h
    simp [workerRun, h]
  · intro mappings archivesDir concurrency envOf arrival
    constructor
    · rw [downloadConcurrently, collect_failure_count]; simp
    · rw [downloadConcurrently, collect_success_count]; simp

/-- Witness for `download_outcome_characterization`: a 404 response produces
a failure outcome with its human-readable cause. -/
theorem download_outcome_characterization_witness :
    gs "bad status: 404 Not Found" ≠ ([] : GoStr) :=
  download_outcome_characterization.2.1
    ⟨NetResult.resp ⟨404, gs "404 Not Found"⟩, none, none⟩
    (gs "bad status: 404 Not Found") (by decide)

theorem getFilenameFromURL_eq (url : GoStr) :
    getFilenameFromURL url =
      (if isTarball (baseName url) then baseName url
       else baseName url ++ gs ".tar.gz") := rfl

theorem pathBase_eq (u : GoStr) :
    pathBase u = if u = [] then gs "." else if coreSeg u = [] then gs "/" else coreSeg u := by
  by_cases h : u = []
  · simp [pathBase, h]
  · simp only [pathBase, if_neg h, coreSeg, List.reverse_reverse]

theorem lastNonEmptyPart_append_single (P : List GoStr) (p : GoStr) :
    lastNonEmptyPart (P ++ [p]) =
      if p = [] then lastNonEmptyPart P else some p := by
  induction P with
  | nil => simp [lastNonEmptyPart]
  | cons q P ih =>
    rw [List.cons_append, lastNonEmptyPart, ih]
    by_cases hp : p = []
    · simp [hp, lastNonEmptyPart]
    · simp [hp]

theorem splitSlash_append_slash (x : GoStr) :
    splitSlash (x ++ ['/']) = splitSlash x ++ [[]] := by
  have := splitSlash_append x []
  simpa [splitSlash] using this

theorem splitSlash_append_char (x : GoStr) {c : Char} (hc : c ≠ '/') :
    ∃ P last, splitSlash x = P ++ [last] ∧
      splitSlash (x ++ [c]) = P ++ [last ++ [c]] := by
  induction x with
  | nil => exact ⟨[], [], by simp [splitSlash], by simp [splitSlash, hc]⟩
  | cons a x' ih =>
    obtain ⟨P, last, h1, h2⟩ := ih
    by_cases ha : a = '/'
    · refine ⟨[] :: P, last, ?_, ?_⟩
      · simp [splitSlash, ha, h1]
      · simp [splitSlash, ha, h2]
    · cases P with
      | nil =>
        simp only [List.nil_append] at h1 h2
        refine ⟨[], a :: last, ?_, ?_⟩
        · simp [splitSlash, ha, h1]
        · simp only [List.cons_append, splitSlash, if_neg ha, List.append_eq]
          rw [h2]
          simp
      | cons p ps =>
        refine ⟨(a :: p) :: ps, last, ?_, ?_⟩
        · simp [splitSlash, ha, h1]
        · simp only [List.cons_append, splitSlash, if_neg ha, List.append_eq]
          rw [h2]
          simp

theorem rawLastSeg_append_slash (x : GoStr) : rawLastSeg (x ++ ['/']) = [] := by
  simp [rawLastSeg, List.reverse_append]

theorem rawLastSeg_append_char (x : GoStr) {c : Char} (hc : c ≠ '/') :
    rawLastSeg (x ++ [c]) = rawLastSeg x ++ [c] := by
  rw [rawLastSeg, rawLastSeg, List.reverse_append]
  simp [List.takeWhile_cons, hc]

theorem coreSeg_append_slash (x : GoStr) : coreSeg (x ++ ['/']) = coreSeg x := by
  simp [coreSeg, List.reverse_append, List.dropWhile_cons]

theorem coreSeg_append_char (x : GoStr) {c : Char} (hc : c ≠ '/') :
    coreSeg (x ++ [c]) = rawLastSeg x ++ [c] := by
  rw [coreSeg, rawLastSeg, List.reverse_append]
  simp [List.dropWhile_cons, List.takeWhile_cons, hc]

theorem splitSlash_last_eq_rawLastSeg (x : GoStr) :
    ∃ P, splitSlash x = P ++ [rawLastSeg x] := by
  induction x using List.reverseRecOn with
  | nil => exact ⟨[], by simp [splitSlash, rawLastSeg]⟩
  | append_singleton x c ih =>
    by_cases hc : c = '/'
    · subst hc
      refine ⟨splitSlash x, ?_⟩
      rw [splitSlash_append_slash, rawLastSeg_append_slash]
    · obtain ⟨P, last, h1, h2⟩ := splitSlash_append_char x hc
      obtain ⟨P', h'⟩ := ih
      have hlast : last = rawLastSeg x := by
        have heq := h1.symm.trans h'
        have g1 : (P ++ [last]).getLast? = some last := List.getLast?_concat _
        rw [heq, List.getLast?_concat] at g1
        exact (Option.some.inj g1).symm
      exact ⟨P, by rw [h2, rawLastSeg_append_char x hc, hlast]⟩

theorem lastNonEmptyPart_splitSlash (u : GoStr) :
    lastNonEmptyPart (splitSlash u) =
      if coreSeg u = [] then none else some (coreSeg u) := by
  induction u using List.reverseRecOn with
  | nil => simp [splitSlash, lastNonEmptyPart, coreSeg]
  | append_singleton x c ih =>
    by_cases hc : c = '/'
    · subst hc
      rw [splitSlash_append_slash, lastNonEmptyPart_append_single, if_pos rfl, ih,
        coreSeg_append_slash]
    · obtain ⟨P, last, h1, h2⟩ := splitSlash_append_char x hc
      have hlast : last = rawLastSeg x := by
        obtain ⟨P', h'⟩ := splitSlash_last_eq_rawLastSeg x
        have heq := h1.symm.trans h'
        have g1 : (P ++ [last]).getLast? = some last := List.getLast?_concat _
        rw [heq, List.getLast?_concat] at g1
        exact (Option.some.inj g1).symm
      rw [h2, lastNonEmptyPart_append_single, if_neg (by simp), coreSeg_append_char x hc,
        if_neg (by simp), hlast]

theorem baseName_eq_lastNonEmpty {u s : GoStr}
    (h : lastNonEmptyPart (splitSlash u) = some s) : baseName u = s := by
  rw [baseName]
  by_cases hb : pathBase u = gs "." ∨ pathBase u = gs "/"
  · rw [if_pos hb, h]
  · rw [if_neg hb]
    rw [pathBase_eq] at hb ⊢
    by_cases hu : u = []
    · exact absurd (Or.inl (by rw [if_pos hu])) hb
    · rw [if_neg hu] at hb ⊢
      by_cases hcz : coreSeg u = []
      · exact absurd (Or.inr (by rw [if_pos hcz])) hb
      · rw [if_neg hcz]
        have hF := lastNonEmptyPart_splitSlash u
        rw [h, if_neg hcz] at hF
        exact (Option.some.inj hF).symm

theorem getFilename_from_segment (u s : GoStr)
    (h : lastNonEmptyPart (splitSlash u) = some s) :
    getFilenameFromURL u = (if isTarball s then s else s ++ gs ".tar.gz") := by
  rw [getFilenameFromURL_eq, baseName_eq_lastNonEmpty h]

/-- C7 (amended): filename derivation takes the final non-empty path segment
`s` of the URL and appends `".tar.gz"` exactly when `s` does not already
*contain* (case-insensitively, as a substring) one of the four recognised
tarball suffixes; when it contains one, `s` is returned unchanged. -/
theorem getFilename_final_segment (u s : GoStr)
    (h : lastNonEmptyPart (splitSlash u) = some s) :
    getFilenameFromURL u = (if isTarball s then s else s ++ gs ".tar.gz") :=
  getFilename_from_segment u s h

/-- Witness for `getFilename_final_segment` at a concrete URL. -/
theorem getFilename_final_segment_witness :
    getFilenameFromURL (gs "https://x/foo.txt") =
      (if isTarball (gs "foo.txt") then gs "foo.txt" else gs "foo.txt" ++ gs ".tar.gz") :=
  getFilename_final_segment (gs "https://x/foo.txt") (gs "foo.txt") (by decide)

/-- C7 counterexample: the final segment `"foo.tar.gz.sig"` does not end with
a recognised suffix, so the claim demands `".tar.gz"` be appended, yet the
code returns it unchanged (its substring test sees the inner `".tar.gz"`). -/
theorem getFilename_final_segment_counterexample :
    lastNonEmptyPart (splitSlash (gs "https://x/foo.tar.gz.sig"))
      = some (gs "foo.tar.gz.sig") ∧
    specEndsWithTarSuffix (gs "foo.tar.gz.sig") = false ∧
    getFilenameFromURL (gs "https://x/foo.tar.gz.sig") = gs "foo.tar.gz.sig" := by decide

theorem exists_part_of_mem {u : GoStr} {c : Char} (hc : c ∈ u) (hslash : c ≠ '/') :
    ∃ p ∈ splitSlash u, c ∈ p := by
  induction u with
  | nil => simp at hc
  | cons a u' ih =>
    by_cases ha : a = '/'
    · subst ha
      rcases List.mem_cons.mp hc with h | h
      · exact absurd h hslash
      · obtain ⟨p, hp, hcp⟩ := ih h
        exact ⟨p, by simp [splitSlash, hp], hcp⟩
    · rcases hsp : splitSlash u' with _ | ⟨p₀, ps⟩
      · exact absurd hsp (splitSlash_ne_nil u')
      · have hsplit : splitSlash (a :: u') = (a :: p₀) :: ps := by
          simp only [splitSlash, if_neg ha, hsp]
        rcases List.mem_cons.mp hc with h | h
        · exact ⟨a :: p₀, by simp [hsplit], by simp [h]⟩
        · obtain ⟨p, hp, hcp⟩ := ih h
          rw [hsp] at hp
          rcases List.mem_cons.mp hp with h' | h'
          · exact ⟨a :: p₀, by simp [hsplit], by simp [h' ▸ hcp]⟩
          · exact ⟨p, by simp [hsplit, h'], hcp⟩

theorem lastNonEmptyPart_isSome_of_exists {P : List GoStr}
    (h : ∃ p ∈ P, p ≠ []) : ∃ s, lastNonEmptyPart P = some s := by
  induction P with
  | nil => simp at h
  | cons q P ih =>
    rcases hP : lastNonEmptyPart P with _ | s
    · obtain ⟨p, hp, hpne⟩ := h
      rcases List.mem_cons.mp hp with h' | h'
      · subst h'
        exact ⟨p, by rw [lastNonEmptyPart, hP, if_neg hpne]⟩
      · obtain ⟨s, hs⟩ := ih ⟨p, h', hpne⟩
        rw [hP] at hs
        exact absurd hs (by simp)
    · exact ⟨s, by rw [lastNonEmptyPart, hP]⟩

theorem lastNonEmptyPart_spec {P : List GoStr} {s : GoStr}
    (h : lastNonEmptyPart P = some s) : s ∈ P ∧ s ≠ [] := by
  induction P with
  | nil => simp [lastNonEmptyPart] at h
  | cons q P ih =>
    rw [lastNonEmptyPart] at h
    rcases hP : lastNonEmptyPart P with _ | r
    · rw [hP] at h
      by_cases hq : q = []
      · rw [if_pos hq] at h
        exact absurd h (by simp)
      · rw [if_neg hq] at h
        obtain rfl := Option.some.inj h
        exact ⟨by simp, hq⟩
    · rw [hP] at h
      obtain rfl := Option.some.inj h
      obtain ⟨h1, h2⟩ := ih hP
      exact ⟨List.mem_cons_of_mem q h1, h2⟩

theorem dropWhile_no_slash {l : GoStr} (h : ∀ c ∈ l, c ≠ '/') :
    l.dropWhile (fun c => c = '/') = l := by
  cases l with
  | nil => rfl
  | cons a l => simp [List.dropWhile_cons, h a (by simp)]

theorem takeWhile_no_slash {l : GoStr} (h : ∀ c ∈ l, c ≠ '/') :
    l.takeWhile (fun c => c ≠ '/') = l := by
  induction l with
  | nil => rfl
  | cons a l ih =>
    have ha := h a (by simp)
    have hl : ∀ c ∈ l, c ≠ '/' := fun c hc => h c (by simp [hc])
    simp [List.takeWhile_cons, ha, ih hl]
    exact hl

theorem coreSeg_no_slash {r : GoStr} (h : '/' ∉ r) : coreSeg r = r := by
  have hall : ∀ c ∈ r.reverse, c ≠ '/' :=
    fun c hc hc' => h (hc' ▸ List.mem_reverse.mp hc)
  rw [coreSeg, dropWhile_no_slash hall, takeWhile_no_slash hall, List.reverse_reverse]

theorem isTarball_append_targz (s : GoStr) :
    isTarball (s ++ gs ".tar.gz") = true := by
  have hfirst : containsSub (gs ".tar.gz")
      (List.map Char.toLower s ++ gs ".tar.gz") = true := by
    rw [containsSub_iff]
    exact end_contained (List.suffix_append (List.map Char.toLower s) (gs ".tar.gz"))
  have hl : List.map Char.toLower (gs ".tar.gz") = gs ".tar.gz" := by decide
  simp only [isTarball, lowerStr, List.map_append, hl]
  simp [hfirst]

theorem getFilename_fixed {r : GoStr} (hne : r ≠ []) (hslash : '/' ∉ r)
    (htar : isTarball r = true) : getFilenameFromURL r = r := by
  rw [getFilenameFromURL_eq]
  have hbase : baseName r = r := by
    rw [baseName]
    have hpb : pathBase r = r := by
      rw [pathBase_eq, if_neg hne, coreSeg_no_slash hslash, if_neg hne]
    rw [hpb]
    have hdot : ¬(r = gs "." ∨ r = gs "/") := by
      rintro (h | h) <;> rw [h] at htar <;> exact absurd htar (by decide)
    rw [if_neg hdot]
  rw [hbase, if_pos htar]

/-- C10 (amended): filename derivation is idempotent for the empty URL and
for every URL containing at least one non-`'/'` character; for non-empty
all-slash URLs (e.g. `"/"`) it is not idempotent, because the fallback scan
finds no non-empty part and leaves the slash in the derived name. -/
theorem getFilename_idempotent_amended (u : GoStr)
    (h : u = [] ∨ ∃ c ∈ u, c ≠ '/') :
    getFilenameFromURL (getFilenameFromURL u) = getFilenameFromURL u := by
  rcases h with h | ⟨c, hcmem, hcslash⟩
  · subst h
    decide
  · obtain ⟨p, hp, hcp⟩ := exists_part_of_mem hcmem hcslash
    have hex : ∃ q ∈ splitSlash u, q ≠ [] :=
      ⟨p, hp, fun hnil => by simp [hnil] at hcp⟩
    obtain ⟨s, hs⟩ := lastNonEmptyPart_isSome_of_exists hex
    obtain ⟨hsmem, hsne⟩ := lastNonEmptyPart_spec hs
    have hsslash : '/' ∉ s := splitSlash_no_slash hsmem
    rw [getFilename_from_segment u s hs]
    by_cases htar : isTarball s = true
    · rw [if_pos htar]
      exact getFilename_fixed hsne hsslash htar
    · rw [if_neg htar]
      apply getFilename_fixed
      · simp [gs]
      · intro hmem
        rcases List.mem_append.mp hmem with h' | h'
        · exact hsslash h'
        · exact absurd h' (by decide)
      · exact isTarball_append_targz s

/-- C10 counterexample: `getFilenameFromURL` is not idempotent at the
all-slash URL `"/"`. -/
theorem getFilename_idempotent_counterexample :
    getFilenameFromURL (gs "/") = gs "/.tar.gz" ∧
    getFilenameFromURL (getFilenameFromURL (gs "/")) = gs ".tar.gz" ∧
    getFilenameFromURL (getFilenameFromURL (gs "/"))
      ≠ getFilenameFromURL (gs "/") := by decide

/-- Witness for `getFilename_idempotent_amended` at a concrete URL. -/
theorem getFilename_idempotent_amended_witness :
    getFilenameFromURL (getFilenameFromURL (gs "https://x/foo"))
      = getFilenameFromURL (gs "https://x/foo") :=
  getFilename_idempotent_amended (gs "https://x/foo") (Or.inr (by decide))

end Sbomfetch
